import Mathlib

/-!
Shallow embedding of the RC5 block cipher implementation in `src/RC5.cpp`.

Machine words of width `w` are modelled as `Nat` values, with every operation
that the C++ performs on a `w`-bit unsigned integer followed by an explicit
reduction `% 2^w`.  Byte buffers (`std::array<uint8_t, n>`) are modelled as
`List Nat` whose entries are the byte values.  The cipher parameters
`w`, `r`, `b` (template arguments `uint8_t w, uint8_t r, uint8_t b` in the
source, with `w` restricted to 16/32/64 by the `WordT` specialisations) are
plain `Nat` arguments; theorems carry the corresponding domain hypotheses.
-/

namespace RC5

/-- `WordT<w>::P` from `src/RC5.cpp` lines 20-42: 0 for unsupported widths
(the C++ rejects those at compile time). -/
def Pconst : Nat → Nat
  | 16 => 0xb7e1
  | 32 => 0xb7e15163
  | 64 => 0xb7e151628aed2a6b
  | _ => 0

/-- `WordT<w>::Q` from `src/RC5.cpp` lines 20-42. -/
def Qconst : Nat → Nat
  | 16 => 0x9e37
  | 32 => 0x9e3779b9
  | 64 => 0x9e3779b97f4a7c15
  | _ => 0

/-- `u = ceil(w / 8)` (line 62).  `w / 8` is C++ integer division, so for the
supported widths this is exactly `w / 8`. -/
def uBytes (w : Nat) : Nat := w / 8

/-- `t = 2 * (r + 1)` (line 63), the subkey table length. -/
def tLen (r : Nat) : Nat := 2 * (r + 1)

/-- `c = ceil(max<double>(b, 1) / u)` (line 134).  For `b ≤ 255` and
`u ∈ {2,4,8}` the double arithmetic is exact, so this is the integer
ceiling `(max b 1 + u - 1) / u`. -/
def cLen (w b : Nat) : Nat := (max b 1 + uBytes w - 1) / uBytes w

/-- Addition of two `w`-bit words: C++ unsigned `+` wraps modulo `2^w`. -/
def wadd (w a b : Nat) : Nat := (a + b) % 2 ^ w

/-- Subtraction of two `w`-bit words: C++ unsigned `-` wraps modulo `2^w`;
for `a, b < 2^w` this is `(a + 2^w - b) % 2^w`. -/
def wsub (w a b : Nat) : Nat := (a + (2 ^ w - b % 2 ^ w)) % 2 ^ w

/-- The masked rotation amount `y & (w - 1)` used by `left_shift` and
`right_shift` (lines 176-184). -/
def rotAmt (w y : Nat) : Nat := y &&& (w - 1)

/-- The complementary shift amount `w - (y & (w - 1))` computed by
`left_shift`/`right_shift` for their second operand.  When
`y & (w - 1) == 0` this is `w` itself. -/
def backAmt (w y : Nat) : Nat := w - rotAmt w y

/-- `left_shift(x, y) = x << (y & (w-1)) | x >> (w - (y & (w-1)))`
(lines 176-179), the result truncated to `w` bits.  `Nat` shifts by `≥ w`
yield 0 (the C++ relies on this shift being benign; see the C4 analysis). -/
def left_shift (w x y : Nat) : Nat :=
  ((x <<< rotAmt w y) ||| (x >>> backAmt w y)) % 2 ^ w

/-- `right_shift(x, y) = x >> (y & (w-1)) | x << (w - (y & (w-1)))`
(lines 181-184). -/
def right_shift (w x y : Nat) : Nat :=
  ((x >>> rotAmt w y) ||| (x <<< backAmt w y)) % 2 ^ w

/-- `packWord(input_stream, start)` (lines 159-166): for `i = 1..u`,
`word = (word << 8) + input_stream[start + u - i]`, each step truncated to a
word.  Reads the `u` bytes at `start..start+u-1` little-endian. -/
def packWord (w : Nat) (input : List Nat) (start : Nat) : Nat :=
  (List.range (uBytes w)).foldl
    (fun word i => ((word <<< 8) + input.getD (start + uBytes w - (i + 1)) 0) % 2 ^ w) 0

/-- The byte `(word & (0xFFull << i*8)) >> (i*8)` stored by `unpackWord`
(line 173). -/
def byteAt (word i : Nat) : Nat := (word &&& (0xFF <<< (i * 8))) >>> (i * 8)

/-- `unpackWord(outputStream, start, word)` (lines 169-174): writes
`outputStream[start + i] = (word & (0xFF << i*8)) >> (i*8)` for `i = 0..u-1`. -/
def unpackWord (w : Nat) (out : List Nat) (start word : Nat) : List Nat :=
  (List.range (uBytes w)).foldl (fun o i => o.set (start + i) (byteAt word i)) out

/-- The L table built by `setupS` (lines 134-137): a zero-initialised array of
`c` words, then for `i = b-1` down to `0`: `L[i/u] = (L[i/u] << 8) + K[i]`. -/
def initL (w b : Nat) (K : List Nat) : List Nat :=
  (List.range b).reverse.foldl
    (fun L i => L.set (i / uBytes w)
      (((L.getD (i / uBytes w) 0) <<< 8 + K.getD i 0) % 2 ^ w))
    (List.replicate (cLen w b) 0)

/-- The initial S table (lines 139-142): `S[0] = P`, `S[i] = S[i-1] + Q`
with word wraparound. -/
def sInit (w : Nat) : Nat → Nat
  | 0 => Pconst w
  | i + 1 => (sInit w i + Qconst w) % 2 ^ w

/-- State of the key-mixing loop of `setupS` (lines 144-152): the arrays
`S` and `L` plus the indices `i`, `j` and running words `A`, `B`. -/
structure MixSt where
  S : List Nat
  L : List Nat
  i : Nat
  j : Nat
  A : Nat
  B : Nat

/-- One iteration of the mixing loop (lines 146-152):
`A = S[i] = left_shift(S[i] + A + B, 3)`;
`B = L[j] = left_shift(L[j] + A + B, A + B)` (with the just-updated `A`);
`i = (i + 1) % t`; `j = (j + 1) % c`. -/
def mixStep (w tt cc : Nat) (st : MixSt) : MixSt :=
  let A := left_shift w (wadd w (wadd w (st.S.getD st.i 0) st.A) st.B) 3
  let S := st.S.set st.i A
  let B := left_shift w (wadd w (wadd w (st.L.getD st.j 0) A) st.B) (wadd w A st.B)
  let L := st.L.set st.j B
  ⟨S, L, (st.i + 1) % tt, (st.j + 1) % cc, A, B⟩

/-- `setupS(K)` (lines 132-154): build `L` from the key, initialise `S`
from `P` and `Q`, run `3 * max(t, c)` mixing iterations, return `S`. -/
def setupS (w r b : Nat) (K : List Nat) : List Nat :=
  let S0 := (List.range (tLen r)).map (sInit w)
  ((mixStep w (tLen r) (cLen w b))^[3 * max (tLen r) (cLen w b)]
    ⟨S0, initL w b K, 0, 0, 0, 0⟩).S

/-- One round of `encodeWords` (lines 96-97):
`A = left_shift(A ^ B, B) + S[2*i]`;
`B = left_shift(B ^ A, A) + S[2*i+1]` (with the just-updated `A`). -/
def encRound (w : Nat) (S : List Nat) (p : Nat × Nat) (i : Nat) : Nat × Nat :=
  let A := wadd w (left_shift w (p.1 ^^^ p.2) p.2) (S.getD (2 * i) 0)
  let B := wadd w (left_shift w (p.2 ^^^ A) A) (S.getD (2 * i + 1) 0)
  (A, B)

/-- One round of `decodeWords` (lines 123-124):
`B = right_shift(B - S[2*i+1], A) ^ A`;
`A = right_shift(A - S[2*i], B) ^ B` (with the just-updated `B`). -/
def decRound (w : Nat) (S : List Nat) (p : Nat × Nat) (i : Nat) : Nat × Nat :=
  let B := (right_shift w (wsub w p.2 (S.getD (2 * i + 1) 0)) p.1) ^^^ p.1
  let A := (right_shift w (wsub w p.1 (S.getD (2 * i) 0)) B) ^^^ B
  (A, B)

/-- `encodeWords(K, A, B)` (lines 87-99): `A += S[0]; B += S[1]`, then the
round transform for `i = 1..r`.  The C++ loop counter is a `uint8_t`, so this
fold models the executed iterations only when the loop terminates, i.e. for
`r ≤ 254`; see `encCounter` below for the counter itself. -/
def encodeWords (w r b : Nat) (K : List Nat) (A B : Nat) : Nat × Nat :=
  let S := setupS w r b K
  (List.range' 1 r).foldl (encRound w S) (wadd w A (S.getD 0 0), wadd w B (S.getD 1 0))

/-- `decodeWords(K, A, B)` (lines 117-128): the rounds for `i = r` down to
`1`, then `B -= S[1]; A -= S[0]`. -/
def decodeWords (w r b : Nat) (K : List Nat) (A B : Nat) : Nat × Nat :=
  let S := setupS w r b K
  let p := ((List.range' 1 r).reverse).foldl (decRound w S) (A, B)
  (wsub w p.1 (S.getD 0 0), wsub w p.2 (S.getD 1 0))

/-- `encode(K, plaintext)` (lines 71-85): pack `A` from the first `u` bytes
and `B` from the next `u`, run `encodeWords`, unpack `A` at offset 0 and `B`
at offset `u` into a zero-initialised `2u`-byte buffer. -/
def encode (w r b : Nat) (K pt : List Nat) : List Nat :=
  let A := packWord w pt 0
  let B := packWord w pt (uBytes w)
  let p := encodeWords w r b K A B
  unpackWord w (unpackWord w (List.replicate (2 * uBytes w) 0) 0 p.1) (uBytes w) p.2

/-- `decode(K, ciphertext)` (lines 101-115): the mirror of `encode` using
`decodeWords`. -/
def decode (w r b : Nat) (K ct : List Nat) : List Nat :=
  let A := packWord w ct 0
  let B := packWord w ct (uBytes w)
  let p := decodeWords w r b K A B
  unpackWord w (unpackWord w (List.replicate (2 * uBytes w) 0) 0 p.1) (uBytes w) p.2

/-- Modelled from the spec (§4.3): `rotateLeft(x, n)` rotates the `w`-bit
value `x` left by `n mod w` bit positions, written as the standard rotation
idiom with the amount reduced `mod w`. -/
def rotateLeft_spec (w x n : Nat) : Nat :=
  ((x <<< (n % w)) ||| (x >>> (w - n % w))) % 2 ^ w

/-- Modelled from the spec (§4.4 step 2): `S[0] = P`; `S[i] = S[i-1] + Q`
(modular addition). -/
def sInit_spec (w : Nat) : Nat → Nat
  | 0 => Pconst w
  | i + 1 => (sInit_spec w i + Qconst w) % 2 ^ w

/-- Modelled from the spec (§4.4 step 3), one mixing iteration:
`A = S[i] = rotateLeft(S[i] + A + B, 3)`;
`B = L[j] = rotateLeft(L[j] + A + B, (A + B) mod w)`;
`i = (i + 1) mod t`; `j = (j + 1) mod c`. -/
def mixStep_spec (w tt cc : Nat) (st : MixSt) : MixSt :=
  let A := rotateLeft_spec w (wadd w (wadd w (st.S.getD st.i 0) st.A) st.B) 3
  let S := st.S.set st.i A
  let B := rotateLeft_spec w (wadd w (wadd w (st.L.getD st.j 0) A) st.B) ((A + st.B) % w)
  let L := st.L.set st.j B
  ⟨S, L, (st.i + 1) % tt, (st.j + 1) % cc, A, B⟩

/-- Modelled from the spec (§4.4): the key schedule claimed by C5 — the
`S[0] = P`, `S[i] = S[i-1] + Q` initialisation followed by `3 * max(t, c)`
mixing iterations with `A`, `B`, `i`, `j` all starting at 0.  The L-table
construction (step 1) is not part of the algorithm text quoted by the claim,
so it is taken from the source (`initL`). -/
def setupS_spec (w r b : Nat) (K : List Nat) : List Nat :=
  ((mixStep_spec w (tLen r) (cLen w b))^[3 * max (tLen r) (cLen w b)]
    ⟨(List.range (tLen r)).map (sInit_spec w), initL w b K, 0, 0, 0, 0⟩).S

/-- Value of the `uint8_t` loop counter `i` of `encodeWords` (line 94) after
`n` executed loop bodies: it starts at 1 and `++i` wraps modulo 256. -/
def encCounter (n : Nat) : Nat := (1 + n) % 256

/-- The loop `for (uint8_t i = 1; i <= r; ++i)` of `encodeWords` terminates
exactly when some counter value fails the condition `i <= r`. -/
def encLoopTerminates (r : Nat) : Prop := ∃ n : Nat, r < encCounter n

/-- Value of the `uint8_t` loop counter `i` of `decodeWords` (line 121) after
`n` executed loop bodies: it starts at `r` and `--i` decrements.  The body
only runs while `i > 0`, so the counter never wraps. -/
def decCounter (r n : Nat) : Nat := r - n

/-- The loop `for (uint8_t i = r; i > 0; --i)` of `decodeWords` terminates
exactly when some counter value fails the condition `i > 0`. -/
def decLoopTerminates (r : Nat) : Prop := ∃ n : Nat, decCounter r n = 0

/-! ### Word arithmetic lemmas -/

theorem wadd_lt (w a b : Nat) : wadd w a b < 2 ^ w :=
  Nat.mod_lt _ (Nat.two_pow_pos w)

theorem wsub_lt (w a b : Nat) : wsub w a b < 2 ^ w :=
  Nat.mod_lt _ (Nat.two_pow_pos w)

theorem left_shift_lt (w x y : Nat) : left_shift w x y < 2 ^ w :=
  Nat.mod_lt _ (Nat.two_pow_pos w)

theorem right_shift_lt (w x y : Nat) : right_shift w x y < 2 ^ w :=
  Nat.mod_lt _ (Nat.two_pow_pos w)

/-- Wrapping subtraction undoes wrapping addition of the same word. -/
theorem wsub_wadd (w a s : Nat) (ha : a < 2 ^ w) : wsub w (wadd w a s) s = a := by
  unfold wsub wadd
  rw [Nat.mod_add_mod]
  have h2 := Nat.div_add_mod s (2 ^ w)
  have hlt : s % 2 ^ w < 2 ^ w := Nat.mod_lt _ (Nat.two_pow_pos w)
  have hk : a + s + (2 ^ w - s % 2 ^ w) = a + 2 ^ w * (s / 2 ^ w + 1) := by
    rw [Nat.mul_add, Nat.mul_one]
    generalize 2 ^ w * (s / 2 ^ w) = q at h2 ⊢
    omega
  rw [hk, Nat.add_mul_mod_self_left, Nat.mod_eq_of_lt ha]

/-- For the supported widths, `w` is a power of two, so the mask
`y & (w - 1)` is exactly `y mod w`. -/
theorem rotAmt_eq_mod (w y : Nat) (hw : w = 16 ∨ w = 32 ∨ w = 64) :
    rotAmt w y = y % w := by
  rcases hw with h | h | h <;> subst h
  · have h4 := Nat.and_pow_two_sub_one_eq_mod y 4
    norm_num at h4
    simpa [rotAmt] using h4
  · have h5 := Nat.and_pow_two_sub_one_eq_mod y 5
    norm_num at h5
    simpa [rotAmt] using h5
  · have h6 := Nat.and_pow_two_sub_one_eq_mod y 6
    norm_num at h6
    simpa [rotAmt] using h6

/-! ### Rotation round-trip -/

/-- Bit description of the left-rotation expression used by `left_shift`. -/
theorem rotL_testBit (w s x i : Nat) (hs : s < w) (hx : x < 2 ^ w) :
    (((x <<< s) ||| (x >>> (w - s))) % 2 ^ w).testBit i =
      (decide (i < w) &&
        (if i < s then x.testBit (w - s + i) else x.testBit (i - s))) := by
  rw [Nat.testBit_mod_two_pow, Nat.testBit_or, Nat.testBit_shiftLeft,
    Nat.testBit_shiftRight]
  by_cases h1 : i < w
  · by_cases h2 : i < s
    · have hge : ¬ (i ≥ s) := by omega
      simp [h1, h2, hge]
    · have hge : i ≥ s := by omega
      have hbig : x.testBit (w - s + i) = false :=
        Nat.testBit_lt_two_pow
          (lt_of_lt_of_le hx (Nat.pow_le_pow_right (by norm_num) (by omega)))
      simp [h1, h2, hge, hbig]
  · simp [h1]

/-- Rotating right by `s` undoes rotating left by `s`, for `s < w` and a
`w`-bit value. -/
theorem rot_rot (w s x : Nat) (hs : s < w) (hx : x < 2 ^ w) :
    (((((x <<< s) ||| (x >>> (w - s))) % 2 ^ w) >>> s) |||
      ((((x <<< s) ||| (x >>> (w - s))) % 2 ^ w) <<< (w - s))) % 2 ^ w = x := by
  set L := ((x <<< s) ||| (x >>> (w - s))) % 2 ^ w with hLdef
  have hLlt : L < 2 ^ w := Nat.mod_lt _ (Nat.two_pow_pos w)
  apply Nat.eq_of_testBit_eq
  intro i
  rw [Nat.testBit_mod_two_pow, Nat.testBit_or, Nat.testBit_shiftLeft,
    Nat.testBit_shiftRight]
  by_cases h1 : i < w
  · by_cases h2 : i < w - s
    · have e1 : L.testBit (s + i) = x.testBit i := by
        rw [hLdef, rotL_testBit w s x (s + i) hs hx]
        have hns : ¬ (s + i < s) := by omega
        have hsw : s + i < w := by omega
        have hsi : s + i - s = i := by omega
        simp [hns, hsw, hsi]
      have hno : ¬ (i ≥ w - s) := by omega
      simp [h1, h2, hno, e1]
    · have e1 : L.testBit (s + i) = false :=
        Nat.testBit_lt_two_pow
          (lt_of_lt_of_le hLlt (Nat.pow_le_pow_right (by norm_num) (by omega)))
      have hge : i ≥ w - s := by omega
      have e2 : L.testBit (i - (w - s)) = x.testBit i := by
        rw [hLdef, rotL_testBit w s x (i - (w - s)) hs hx]
        have hlt2 : i - (w - s) < s := by omega
        have hlt3 : i - (w - s) < w := by omega
        have hadd : w - s + (i - (w - s)) = i := by omega
        simp [hlt2, hlt3, hadd]
      simp [h1, hge, e1, e2]
  · have e3 : x.testBit i = false :=
      Nat.testBit_lt_two_pow
        (lt_of_lt_of_le hx (Nat.pow_le_pow_right (by norm_num) (by omega)))
    simp [h1, e3]

/-- `right_shift` inverts `left_shift` on `w`-bit values for the supported
widths. -/
theorem right_shift_left_shift (w x y : Nat) (hw : w = 16 ∨ w = 32 ∨ w = 64)
    (hx : x < 2 ^ w) : right_shift w (left_shift w x y) y = x := by
  have hw0 : 0 < w := by rcases hw with h | h | h <;> omega
  have hs : rotAmt w y < w := by
    rw [rotAmt_eq_mod w y hw]
    exact Nat.mod_lt _ hw0
  unfold right_shift left_shift backAmt
  exact rot_rot w (rotAmt w y) x hs hx

/-! ### Round inversion -/

/-- Running a fold of inverse steps over the reversed index list undoes the
original fold, as long as each step preserves the invariant `Inv`. -/
theorem foldl_foldl_reverse {α β : Type} (f g : β → α → β) (Inv : β → Prop) :
    ∀ (l : List α) (p : β),
      (∀ a ∈ l, ∀ q, Inv q → g (f q a) a = q ∧ Inv (f q a)) → Inv p →
      l.reverse.foldl g (l.foldl f p) = p := by
  intro l
  induction l with
  | nil => intro p _ _; rfl
  | cons a tl ih =>
    intro p h hp
    have ha := h a (List.mem_cons_self a tl) p hp
    have htl : ∀ x ∈ tl, ∀ q, Inv q → g (f q x) x = q ∧ Inv (f q x) :=
      fun x hx => h x (List.mem_cons_of_mem a hx)
    simp only [List.foldl_cons, List.reverse_cons, List.foldl_append, List.foldl_nil]
    rw [ih (f p a) htl ha.2, ha.1]

/-- A decode round undoes the matching encode round on `w`-bit word pairs,
and the encode round stays within `w` bits. -/
theorem decRound_encRound (w : Nat) (hw : w = 16 ∨ w = 32 ∨ w = 64)
    (S : List Nat) (i : Nat) (p : Nat × Nat) (h1 : p.1 < 2 ^ w) (h2 : p.2 < 2 ^ w) :
    decRound w S (encRound w S p i) i = p ∧
      (encRound w S p i).1 < 2 ^ w ∧ (encRound w S p i).2 < 2 ^ w := by
  obtain ⟨A, B⟩ := p
  simp only [encRound, decRound]
  refine ⟨?_, wadd_lt _ _ _, wadd_lt _ _ _⟩
  simp only at h1 h2
  set A1 := wadd w (left_shift w (A ^^^ B) B) (S.getD (2 * i) 0) with hA1
  have hA1lt : A1 < 2 ^ w := wadd_lt _ _ _
  have hB2 : right_shift w
      (wsub w (wadd w (left_shift w (B ^^^ A1) A1) (S.getD (2 * i + 1) 0))
        (S.getD (2 * i + 1) 0)) A1 ^^^ A1 = B := by
    rw [wsub_wadd w _ _ (left_shift_lt _ _ _),
      right_shift_left_shift w _ _ hw (Nat.xor_lt_two_pow h2 hA1lt),
      Nat.xor_cancel_right]
  rw [hB2, wsub_wadd w _ _ (left_shift_lt _ _ _),
    right_shift_left_shift w _ _ hw (Nat.xor_lt_two_pow h1 h2),
    Nat.xor_cancel_right]

/-- `decodeWords` undoes `encodeWords` on `w`-bit word pairs. -/
theorem decodeWords_encodeWords (w r b : Nat) (hw : w = 16 ∨ w = 32 ∨ w = 64)
    (K : List Nat) (A B : Nat) (hA : A < 2 ^ w) (hB : B < 2 ^ w) :
    decodeWords w r b K (encodeWords w r b K A B).1 (encodeWords w r b K A B).2 =
      (A, B) := by
  simp only [encodeWords, decodeWords]
  set S := setupS w r b K with hS
  have hfold := foldl_foldl_reverse (encRound w S) (decRound w S)
    (fun q => q.1 < 2 ^ w ∧ q.2 < 2 ^ w) (List.range' 1 r)
    (wadd w A (S.getD 0 0), wadd w B (S.getD 1 0))
    (fun a _ q hq => by
      have h := decRound_encRound w hw S a q hq.1 hq.2
      exact ⟨h.1, h.2.1, h.2.2⟩)
    ⟨wadd_lt _ _ _, wadd_lt _ _ _⟩
  rw [Prod.mk.eta, hfold, wsub_wadd w A _ hA, wsub_wadd w B _ hB]

/-! ### Byte extraction and packing lemmas -/

/-- The byte expression written by `unpackWord` is the `i`-th little-endian
byte of the word. -/
theorem byteAt_eq (word i : Nat) : byteAt word i = word / 2 ^ (i * 8) % 256 := by
  have h256 : (256 : Nat) = 2 ^ 8 := by norm_num
  have h255 : (0xFF : Nat) = 2 ^ 8 - 1 := by norm_num
  apply Nat.eq_of_testBit_eq
  intro j
  rw [byteAt, h256, h255, Nat.testBit_mod_two_pow, ← Nat.shiftRight_eq_div_pow,
    Nat.testBit_shiftRight, Nat.testBit_shiftRight, Nat.testBit_and,
    Nat.testBit_shiftLeft, Nat.testBit_two_pow_sub_one]
  have h1 : i * 8 + j ≥ i * 8 := by omega
  have h2 : i * 8 + j - i * 8 = j := by omega
  simp [h1, h2, Bool.and_comm]

/-- A fold whose steps all end in `% 2^w` stays below `2^w`. -/
theorem foldl_mod_lt (w : Nat) (g : Nat → Nat → Nat) :
    ∀ (l : List Nat) (acc : Nat), acc < 2 ^ w →
      l.foldl (fun word i => g word i % 2 ^ w) acc < 2 ^ w := by
  intro l
  induction l with
  | nil => intro acc h; exact h
  | cons a tl ih => intro acc h; exact ih _ (Nat.mod_lt _ (Nat.two_pow_pos w))

/-- `packWord` returns a `w`-bit word. -/
theorem packWord_lt (w : Nat) (input : List Nat) (start : Nat) :
    packWord w input start < 2 ^ w :=
  foldl_mod_lt w (fun word i => (word <<< 8) + input.getD (start + uBytes w - (i + 1)) 0)
    (List.range (uBytes w)) 0 (Nat.two_pow_pos w)

/-- Both output words of `encodeWords` are `w`-bit words. -/
theorem encodeWords_lt (w r b : Nat) (K : List Nat) (A B : Nat) :
    (encodeWords w r b K A B).1 < 2 ^ w ∧ (encodeWords w r b K A B).2 < 2 ^ w := by
  have h : ∀ (l : List Nat) (p : Nat × Nat), p.1 < 2 ^ w ∧ p.2 < 2 ^ w →
      (l.foldl (encRound w (setupS w r b K)) p).1 < 2 ^ w ∧
      (l.foldl (encRound w (setupS w r b K)) p).2 < 2 ^ w := by
    intro l
    induction l with
    | nil => intro p hp; exact hp
    | cons a tl ih => intro p _; exact ih _ ⟨wadd_lt _ _ _, wadd_lt _ _ _⟩
  exact h (List.range' 1 r) _ ⟨wadd_lt _ _ _, wadd_lt _ _ _⟩

/-! ### Byte-level round trip, w = 32 -/

/-- Packing the buffer produced by the two `unpackWord` calls of
`encode`/`decode` (w = 32) recovers the two words. -/
theorem pack_unpack_32 (A B : Nat) (hA : A < 2 ^ 32) (hB : B < 2 ^ 32) :
    packWord 32 (unpackWord 32 (unpackWord 32 (List.replicate 8 0) 0 A) 4 B) 0 = A ∧
    packWord 32 (unpackWord 32 (unpackWord 32 (List.replicate 8 0) 0 A) 4 B) 4 = B := by
  have hct : unpackWord 32 (unpackWord 32 (List.replicate 8 0) 0 A) 4 B =
      [byteAt A 0, byteAt A 1, byteAt A 2, byteAt A 3,
       byteAt B 0, byteAt B 1, byteAt B 2, byteAt B 3] := rfl
  rw [hct]
  constructor
  · have hp : packWord 32 [byteAt A 0, byteAt A 1, byteAt A 2, byteAt A 3,
        byteAt B 0, byteAt B 1, byteAt B 2, byteAt B 3] 0 =
        ((((((((((((0 <<< 8) + byteAt A 3) % 2 ^ 32) <<< 8) + byteAt A 2) % 2 ^ 32)
          <<< 8) + byteAt A 1) % 2 ^ 32) <<< 8) + byteAt A 0) % 2 ^ 32) := rfl
    rw [hp]
    simp only [Nat.shiftLeft_eq, byteAt_eq]
    norm_num
    omega
  · have hp : packWord 32 [byteAt A 0, byteAt A 1, byteAt A 2, byteAt A 3,
        byteAt B 0, byteAt B 1, byteAt B 2, byteAt B 3] 4 =
        ((((((((((((0 <<< 8) + byteAt B 3) % 2 ^ 32) <<< 8) + byteAt B 2) % 2 ^ 32)
          <<< 8) + byteAt B 1) % 2 ^ 32) <<< 8) + byteAt B 0) % 2 ^ 32) := rfl
    rw [hp]
    simp only [Nat.shiftLeft_eq, byteAt_eq]
    norm_num
    omega

/-- Unpacking the two words packed from an 8-byte buffer restores the
buffer (w = 32). -/
theorem unpack_pack_32 (a0 a1 a2 a3 a4 a5 a6 a7 : Nat)
    (h0 : a0 < 256) (h1 : a1 < 256) (h2 : a2 < 256) (h3 : a3 < 256)
    (h4 : a4 < 256) (h5 : a5 < 256) (h6 : a6 < 256) (h7 : a7 < 256) :
    unpackWord 32 (unpackWord 32 (List.replicate 8 0) 0
        (packWord 32 [a0, a1, a2, a3, a4, a5, a6, a7] 0)) 4
        (packWord 32 [a0, a1, a2, a3, a4, a5, a6, a7] 4) =
      [a0, a1, a2, a3, a4, a5, a6, a7] := by
  have hA : packWord 32 [a0, a1, a2, a3, a4, a5, a6, a7] 0 =
      ((((((((((((0 <<< 8) + a3) % 2 ^ 32) <<< 8) + a2) % 2 ^ 32) <<< 8) + a1)
        % 2 ^ 32) <<< 8) + a0) % 2 ^ 32) := rfl
  have hB : packWord 32 [a0, a1, a2, a3, a4, a5, a6, a7] 4 =
      ((((((((((((0 <<< 8) + a7) % 2 ^ 32) <<< 8) + a6) % 2 ^ 32) <<< 8) + a5)
        % 2 ^ 32) <<< 8) + a4) % 2 ^ 32) := rfl
  have hct : ∀ A B : Nat, unpackWord 32 (unpackWord 32 (List.replicate 8 0) 0 A) 4 B =
      [byteAt A 0, byteAt A 1, byteAt A 2, byteAt A 3,
       byteAt B 0, byteAt B 1, byteAt B 2, byteAt B 3] := fun A B => rfl
  rw [hct, hA, hB]
  simp only [byteAt_eq, Nat.shiftLeft_eq, List.cons.injEq, and_true]
  norm_num
  refine ⟨?_, ?_, ?_, ?_, ?_, ?_, ?_, ?_⟩ <;> omega

/-- Byte-level round trip for w = 32: `decode` undoes `encode` on any
8-byte block. -/
theorem roundtrip_32 (r b : Nat) (K pt : List Nat) (hpt : pt.length = 8)
    (hbytes : ∀ x ∈ pt, x < 256) :
    decode 32 r b K (encode 32 r b K pt) = pt := by
  obtain ⟨a0, a1, a2, a3, a4, a5, a6, a7, rfl⟩ : ∃ a0 a1 a2 a3 a4 a5 a6 a7,
      pt = [a0, a1, a2, a3, a4, a5, a6, a7] := by
    rcases pt with _ | ⟨a0, _ | ⟨a1, _ | ⟨a2, _ | ⟨a3, _ | ⟨a4, _ |
      ⟨a5, _ | ⟨a6, _ | ⟨a7, _ | ⟨a8, tl⟩⟩⟩⟩⟩⟩⟩⟩⟩ <;>
      first
        | exact ⟨_, _, _, _, _, _, _, _, rfl⟩
        | (exfalso; simp only [List.length_cons, List.length_nil] at hpt; omega)
  have henc := encodeWords_lt 32 r b K (packWord 32 [a0, a1, a2, a3, a4, a5, a6, a7] 0)
    (packWord 32 [a0, a1, a2, a3, a4, a5, a6, a7] 4)
  have hpu := pack_unpack_32 _ _ henc.1 henc.2
  have henceq : encode 32 r b K [a0, a1, a2, a3, a4, a5, a6, a7] =
      unpackWord 32 (unpackWord 32 (List.replicate 8 0) 0
        (encodeWords 32 r b K (packWord 32 [a0, a1, a2, a3, a4, a5, a6, a7] 0)
          (packWord 32 [a0, a1, a2, a3, a4, a5, a6, a7] 4)).1) 4
        (encodeWords 32 r b K (packWord 32 [a0, a1, a2, a3, a4, a5, a6, a7] 0)
          (packWord 32 [a0, a1, a2, a3, a4, a5, a6, a7] 4)).2 := rfl
  have hdec : ∀ ct : List Nat, decode 32 r b K ct =
      unpackWord 32 (unpackWord 32 (List.replicate 8 0) 0
        (decodeWords 32 r b K (packWord 32 ct 0) (packWord 32 ct 4)).1) 4
        (decodeWords 32 r b K (packWord 32 ct 0) (packWord 32 ct 4)).2 :=
    fun ct => rfl
  rw [henceq, hdec, hpu.1, hpu.2,
    decodeWords_encodeWords 32 r b (by norm_num) K _ _
      (packWord_lt 32 [a0, a1, a2, a3, a4, a5, a6, a7] 0)
      (packWord_lt 32 [a0, a1, a2, a3, a4, a5, a6, a7] 4)]
  exact unpack_pack_32 a0 a1 a2 a3 a4 a5 a6 a7
    (hbytes a0 (by simp)) (hbytes a1 (by simp)) (hbytes a2 (by simp))
    (hbytes a3 (by simp)) (hbytes a4 (by simp)) (hbytes a5 (by simp))
    (hbytes a6 (by simp)) (hbytes a7 (by simp))

/-! ### Byte-level round trip, w = 16 -/

/-- Packing the buffer produced by the two `unpackWord` calls of
`encode`/`decode` (w = 16) recovers the two words. -/
theorem pack_unpack_16 (A B : Nat) (hA : A < 2 ^ 16) (hB : B < 2 ^ 16) :
    packWord 16 (unpackWord 16 (unpackWord 16 (List.replicate 4 0) 0 A) 2 B) 0 = A ∧
    packWord 16 (unpackWord 16 (unpackWord 16 (List.replicate 4 0) 0 A) 2 B) 2 = B := by
  have hct : unpackWord 16 (unpackWord 16 (List.replicate 4 0) 0 A) 2 B =
      [byteAt A 0, byteAt A 1, byteAt B 0, byteAt B 1] := rfl
  rw [hct]
  constructor
  · have hp : packWord 16 [byteAt A 0, byteAt A 1, byteAt B 0, byteAt B 1] 0 =
        ((((((0 <<< 8) + byteAt A 1) % 2 ^ 16) <<< 8) + byteAt A 0) % 2 ^ 16) := rfl
    rw [hp]
    simp only [Nat.shiftLeft_eq, byteAt_eq]
    norm_num
    omega
  · have hp : packWord 16 [byteAt A 0, byteAt A 1, byteAt B 0, byteAt B 1] 2 =
        ((((((0 <<< 8) + byteAt B 1) % 2 ^ 16) <<< 8) + byteAt B 0) % 2 ^ 16) := rfl
    rw [hp]
    simp only [Nat.shiftLeft_eq, byteAt_eq]
    norm_num
    omega

/-- Unpacking the two words packed from a 4-byte buffer restores the
buffer (w = 16). -/
theorem unpack_pack_16 (a0 a1 a2 a3 : Nat)
    (h0 : a0 < 256) (h1 : a1 < 256) (h2 : a2 < 256) (h3 : a3 < 256) :
    unpackWord 16 (unpackWord 16 (List.replicate 4 0) 0
        (packWord 16 [a0, a1, a2, a3] 0)) 2
        (packWord 16 [a0, a1, a2, a3] 2) =
      [a0, a1, a2, a3] := by
  have hA : packWord 16 [a0, a1, a2, a3] 0 =
      ((((((0 <<< 8) + a1) % 2 ^ 16) <<< 8) + a0) % 2 ^ 16) := rfl
  have hB : packWord 16 [a0, a1, a2, a3] 2 =
      ((((((0 <<< 8) + a3) % 2 ^ 16) <<< 8) + a2) % 2 ^ 16) := rfl
  have hct : ∀ A B : Nat, unpackWord 16 (unpackWord 16 (List.replicate 4 0) 0 A) 2 B =
      [byteAt A 0, byteAt A 1, byteAt B 0, byteAt B 1] := fun A B => rfl
  rw [hct, hA, hB]
  simp only [byteAt_eq, Nat.shiftLeft_eq, List.cons.injEq, and_true]
  norm_num
  refine ⟨?_, ?_, ?_, ?_⟩ <;> omega

/-- Byte-level round trip for w = 16: `decode` undoes `encode` on any
4-byte block. -/
theorem roundtrip_16 (r b : Nat) (K pt : List Nat) (hpt : pt.length = 4)
    (hbytes : ∀ x ∈ pt, x < 256) :
    decode 16 r b K (encode 16 r b K pt) = pt := by
  obtain ⟨a0, a1, a2, a3, rfl⟩ : ∃ a0 a1 a2 a3,
      pt = [a0, a1, a2, a3] := by
    rcases pt with _ | ⟨a0, _ | ⟨a1, _ | ⟨a2, _ | ⟨a3, _ | ⟨x, tl⟩⟩⟩⟩⟩ <;>
      first
        | exact ⟨_, _, _, _, rfl⟩
        | (exfalso; simp only [List.length_cons, List.length_nil] at hpt; omega)
  have henc := encodeWords_lt 16 r b K (packWord 16 [a0, a1, a2, a3] 0)
    (packWord 16 [a0, a1, a2, a3] 2)
  have hpu := pack_unpack_16 _ _ henc.1 henc.2
  have henceq : encode 16 r b K [a0, a1, a2, a3] =
      unpackWord 16 (unpackWord 16 (List.replicate 4 0) 0
        (encodeWords 16 r b K (packWord 16 [a0, a1, a2, a3] 0)
          (packWord 16 [a0, a1, a2, a3] 2)).1) 2
        (encodeWords 16 r b K (packWord 16 [a0, a1, a2, a3] 0)
          (packWord 16 [a0, a1, a2, a3] 2)).2 := rfl
  have hdec : ∀ ct : List Nat, decode 16 r b K ct =
      unpackWord 16 (unpackWord 16 (List.replicate 4 0) 0
        (decodeWords 16 r b K (packWord 16 ct 0) (packWord 16 ct 2)).1) 2
        (decodeWords 16 r b K (packWord 16 ct 0) (packWord 16 ct 2)).2 :=
    fun ct => rfl
  rw [henceq, hdec, hpu.1, hpu.2,
    decodeWords_encodeWords 16 r b (by norm_num) K _ _
      (packWord_lt 16 [a0, a1, a2, a3] 0)
      (packWord_lt 16 [a0, a1, a2, a3] 2)]
  exact unpack_pack_16 a0 a1 a2 a3
    (hbytes a0 (by simp)) (hbytes a1 (by simp)) (hbytes a2 (by simp)) (hbytes a3 (by simp))

/-! ### Byte-level round trip, w = 64 -/

set_option maxHeartbeats 2000000 in
/-- Packing the buffer produced by the two `unpackWord` calls of
`encode`/`decode` (w = 64) recovers the two words. -/
theorem pack_unpack_64 (A B : Nat) (hA : A < 2 ^ 64) (hB : B < 2 ^ 64) :
    packWord 64 (unpackWord 64 (unpackWord 64 (List.replicate 16 0) 0 A) 8 B) 0 = A ∧
    packWord 64 (unpackWord 64 (unpackWord 64 (List.replicate 16 0) 0 A) 8 B) 8 = B := by
  have hct : unpackWord 64 (unpackWord 64 (List.replicate 16 0) 0 A) 8 B =
      [byteAt A 0, byteAt A 1, byteAt A 2, byteAt A 3, byteAt A 4, byteAt A 5, byteAt A 6, byteAt A 7, byteAt B 0, byteAt B 1, byteAt B 2, byteAt B 3, byteAt B 4, byteAt B 5, byteAt B 6, byteAt B 7] := rfl
  rw [hct]
  constructor
  · have hp : packWord 64 [byteAt A 0, byteAt A 1, byteAt A 2, byteAt A 3, byteAt A 4, byteAt A 5, byteAt A 6, byteAt A 7, byteAt B 0, byteAt B 1, byteAt B 2, byteAt B 3, byteAt B 4, byteAt B 5, byteAt B 6, byteAt B 7] 0 =
        ((((((((((((((((((((((((0 <<< 8) + byteAt A 7) % 2 ^ 64) <<< 8) + byteAt A 6) % 2 ^ 64) <<< 8) + byteAt A 5) % 2 ^ 64) <<< 8) + byteAt A 4) % 2 ^ 64) <<< 8) + byteAt A 3) % 2 ^ 64) <<< 8) + byteAt A 2) % 2 ^ 64) <<< 8) + byteAt A 1) % 2 ^ 64) <<< 8) + byteAt A 0) % 2 ^ 64) := rfl
    rw [hp]
    simp only [Nat.shiftLeft_eq, byteAt_eq]
    norm_num
    omega
  · have hp : packWord 64 [byteAt A 0, byteAt A 1, byteAt A 2, byteAt A 3, byteAt A 4, byteAt A 5, byteAt A 6, byteAt A 7, byteAt B 0, byteAt B 1, byteAt B 2, byteAt B 3, byteAt B 4, byteAt B 5, byteAt B 6, byteAt B 7] 8 =
        ((((((((((((((((((((((((0 <<< 8) + byteAt B 7) % 2 ^ 64) <<< 8) + byteAt B 6) % 2 ^ 64) <<< 8) + byteAt B 5) % 2 ^ 64) <<< 8) + byteAt B 4) % 2 ^ 64) <<< 8) + byteAt B 3) % 2 ^ 64) <<< 8) + byteAt B 2) % 2 ^ 64) <<< 8) + byteAt B 1) % 2 ^ 64) <<< 8) + byteAt B 0) % 2 ^ 64) := rfl
    rw [hp]
    simp only [Nat.shiftLeft_eq, byteAt_eq]
    norm_num
    omega

set_option maxHeartbeats 2000000 in
/-- Unpacking the two words packed from a 16-byte buffer restores the
buffer (w = 64). -/
theorem unpack_pack_64 (a0 a1 a2 a3 a4 a5 a6 a7 a8 a9 a10 a11 a12 a13 a14 a15 : Nat)
    (h0 : a0 < 256) (h1 : a1 < 256) (h2 : a2 < 256) (h3 : a3 < 256) (h4 : a4 < 256) (h5 : a5 < 256) (h6 : a6 < 256) (h7 : a7 < 256) (h8 : a8 < 256) (h9 : a9 < 256) (h10 : a10 < 256) (h11 : a11 < 256) (h12 : a12 < 256) (h13 : a13 < 256) (h14 : a14 < 256) (h15 : a15 < 256) :
    unpackWord 64 (unpackWord 64 (List.replicate 16 0) 0
        (packWord 64 [a0, a1, a2, a3, a4, a5, a6, a7, a8, a9, a10, a11, a12, a13, a14, a15] 0)) 8
        (packWord 64 [a0, a1, a2, a3, a4, a5, a6, a7, a8, a9, a10, a11, a12, a13, a14, a15] 8) =
      [a0, a1, a2, a3, a4, a5, a6, a7, a8, a9, a10, a11, a12, a13, a14, a15] := by
  have hA : packWord 64 [a0, a1, a2, a3, a4, a5, a6, a7, a8, a9, a10, a11, a12, a13, a14, a15] 0 =
      ((((((((((((((((((((((((0 <<< 8) + a7) % 2 ^ 64) <<< 8) + a6) % 2 ^ 64) <<< 8) + a5) % 2 ^ 64) <<< 8) + a4) % 2 ^ 64) <<< 8) + a3) % 2 ^ 64) <<< 8) + a2) % 2 ^ 64) <<< 8) + a1) % 2 ^ 64) <<< 8) + a0) % 2 ^ 64) := rfl
  have hB : packWord 64 [a0, a1, a2, a3, a4, a5, a6, a7, a8, a9, a10, a11, a12, a13, a14, a15] 8 =
      ((((((((((((((((((((((((0 <<< 8) + a15) % 2 ^ 64) <<< 8) + a14) % 2 ^ 64) <<< 8) + a13) % 2 ^ 64) <<< 8) + a12) % 2 ^ 64) <<< 8) + a11) % 2 ^ 64) <<< 8) + a10) % 2 ^ 64) <<< 8) + a9) % 2 ^ 64) <<< 8) + a8) % 2 ^ 64) := rfl
  have hct : ∀ A B : Nat, unpackWord 64 (unpackWord 64 (List.replicate 16 0) 0 A) 8 B =
      [byteAt A 0, byteAt A 1, byteAt A 2, byteAt A 3, byteAt A 4, byteAt A 5, byteAt A 6, byteAt A 7, byteAt B 0, byteAt B 1, byteAt B 2, byteAt B 3, byteAt B 4, byteAt B 5, byteAt B 6, byteAt B 7] := fun A B => rfl
  rw [hct, hA, hB]
  simp only [byteAt_eq, Nat.shiftLeft_eq, List.cons.injEq, and_true]
  norm_num
  refine ⟨?_, ?_, ?_, ?_, ?_, ?_, ?_, ?_, ?_, ?_, ?_, ?_, ?_, ?_, ?_, ?_⟩ <;> omega

set_option maxHeartbeats 2000000 in
/-- Byte-level round trip for w = 64: `decode` undoes `encode` on any
16-byte block. -/
theorem roundtrip_64 (r b : Nat) (K pt : List Nat) (hpt : pt.length = 16)
    (hbytes : ∀ x ∈ pt, x < 256) :
    decode 64 r b K (encode 64 r b K pt) = pt := by
  obtain ⟨a0, a1, a2, a3, a4, a5, a6, a7, a8, a9, a10, a11, a12, a13, a14, a15, rfl⟩ : ∃ a0 a1 a2 a3 a4 a5 a6 a7 a8 a9 a10 a11 a12 a13 a14 a15,
      pt = [a0, a1, a2, a3, a4, a5, a6, a7, a8, a9, a10, a11, a12, a13, a14, a15] := by
    rcases pt with _ | ⟨a0, _ | ⟨a1, _ | ⟨a2, _ | ⟨a3, _ | ⟨a4, _ | ⟨a5, _ | ⟨a6, _ | ⟨a7, _ | ⟨a8, _ | ⟨a9, _ | ⟨a10, _ | ⟨a11, _ | ⟨a12, _ | ⟨a13, _ | ⟨a14, _ | ⟨a15, _ | ⟨x, tl⟩⟩⟩⟩⟩⟩⟩⟩⟩⟩⟩⟩⟩⟩⟩⟩⟩ <;>
      first
        | exact ⟨_, _, _, _, _, _, _, _, _, _, _, _, _, _, _, _, rfl⟩
        | (exfalso; simp only [List.length_cons, List.length_nil] at hpt; omega)
  have henc := encodeWords_lt 64 r b K (packWord 64 [a0, a1, a2, a3, a4, a5, a6, a7, a8, a9, a10, a11, a12, a13, a14, a15] 0)
    (packWord 64 [a0, a1, a2, a3, a4, a5, a6, a7, a8, a9, a10, a11, a12, a13, a14, a15] 8)
  have hpu := pack_unpack_64 _ _ henc.1 henc.2
  have henceq : encode 64 r b K [a0, a1, a2, a3, a4, a5, a6, a7, a8, a9, a10, a11, a12, a13, a14, a15] =
      unpackWord 64 (unpackWord 64 (List.replicate 16 0) 0
        (encodeWords 64 r b K (packWord 64 [a0, a1, a2, a3, a4, a5, a6, a7, a8, a9, a10, a11, a12, a13, a14, a15] 0)
          (packWord 64 [a0, a1, a2, a3, a4, a5, a6, a7, a8, a9, a10, a11, a12, a13, a14, a15] 8)).1) 8
        (encodeWords 64 r b K (packWord 64 [a0, a1, a2, a3, a4, a5, a6, a7, a8, a9, a10, a11, a12, a13, a14, a15] 0)
          (packWord 64 [a0, a1, a2, a3, a4, a5, a6, a7, a8, a9, a10, a11, a12, a13, a14, a15] 8)).2 := rfl
  have hdec : ∀ ct : List Nat, decode 64 r b K ct =
      unpackWord 64 (unpackWord 64 (List.replicate 16 0) 0
        (decodeWords 64 r b K (packWord 64 ct 0) (packWord 64 ct 8)).1) 8
        (decodeWords 64 r b K (packWord 64 ct 0) (packWord 64 ct 8)).2 :=
    fun ct => rfl
  rw [henceq, hdec, hpu.1, hpu.2,
    decodeWords_encodeWords 64 r b (by norm_num) K _ _
      (packWord_lt 64 [a0, a1, a2, a3, a4, a5, a6, a7, a8, a9, a10, a11, a12, a13, a14, a15] 0)
      (packWord_lt 64 [a0, a1, a2, a3, a4, a5, a6, a7, a8, a9, a10, a11, a12, a13, a14, a15] 8)]
  exact unpack_pack_64 a0 a1 a2 a3 a4 a5 a6 a7 a8 a9 a10 a11 a12 a13 a14 a15
    (hbytes a0 (by simp)) (hbytes a1 (by simp)) (hbytes a2 (by simp)) (hbytes a3 (by simp)) (hbytes a4 (by simp)) (hbytes a5 (by simp)) (hbytes a6 (by simp)) (hbytes a7 (by simp)) (hbytes a8 (by simp)) (hbytes a9 (by simp)) (hbytes a10 (by simp)) (hbytes a11 (by simp)) (hbytes a12 (by simp)) (hbytes a13 (by simp)) (hbytes a14 (by simp)) (hbytes a15 (by simp))

/-! ### Key-schedule refinement (spec text vs. source) -/

/-- The source rotation equals the spec rotation whenever the rotation
amounts agree `mod w` (supported widths). -/
theorem left_shift_eq_spec (w x y n : Nat) (hw : w = 16 ∨ w = 32 ∨ w = 64)
    (hy : y % w = n % w) : left_shift w x y = rotateLeft_spec w x n := by
  unfold left_shift rotateLeft_spec backAmt
  rw [rotAmt_eq_mod w y hw, hy]

/-- One spec mixing iteration computes exactly one source mixing iteration. -/
theorem mixStep_eq_spec (w tt cc : Nat) (hw : w = 16 ∨ w = 32 ∨ w = 64)
    (st : MixSt) : mixStep_spec w tt cc st = mixStep w tt cc st := by
  have hdvd : w ∣ 2 ^ w := by rcases hw with h | h | h <;> subst h <;> norm_num
  have hA : rotateLeft_spec w (wadd w (wadd w (st.S.getD st.i 0) st.A) st.B) 3 =
      left_shift w (wadd w (wadd w (st.S.getD st.i 0) st.A) st.B) 3 :=
    (left_shift_eq_spec w _ 3 3 hw rfl).symm
  have hB : ∀ X A0 : Nat, rotateLeft_spec w X ((A0 + st.B) % w) =
      left_shift w X (wadd w A0 st.B) := by
    intro X A0
    refine (left_shift_eq_spec w X (wadd w A0 st.B) ((A0 + st.B) % w) hw ?_).symm
    unfold wadd
    rw [Nat.mod_mod_of_dvd _ hdvd, Nat.mod_mod_of_dvd _ (dvd_refl w)]
  simp only [mixStep, mixStep_spec, hA, hB]

/-- The spec `S` recurrence equals the source `S` recurrence. -/
theorem sInit_eq_spec (w : Nat) : ∀ n, sInit_spec w n = sInit w n := by
  intro n
  induction n with
  | zero => rfl
  | succ m ih => simp only [sInit_spec, sInit, ih]

/-- The mixing loop never changes the length of `S`. -/
theorem mixIter_S_length (w tt cc : Nat) : ∀ (n : Nat) (st : MixSt),
    (((mixStep w tt cc)^[n]) st).S.length = st.S.length := by
  intro n
  induction n with
  | zero => intro st; rfl
  | succ m ih =>
    intro st
    rw [Function.iterate_succ_apply, ih]
    simp only [mixStep]
    rw [List.length_set]

/-- `setupS` returns `t = 2*(r+1)` words. -/
theorem setupS_length (w r b : Nat) (K : List Nat) :
    (setupS w r b K).length = 2 * (r + 1) := by
  unfold setupS
  rw [mixIter_S_length]
  simp [tLen]

/-- The spec key schedule and the source key schedule coincide for the
supported widths. -/
theorem setupS_eq_spec (w r b : Nat) (hw : w = 16 ∨ w = 32 ∨ w = 64)
    (K : List Nat) : setupS_spec w r b K = setupS w r b K := by
  unfold setupS_spec setupS
  rw [funext (mixStep_eq_spec w (tLen r) (cLen w b) hw),
    funext (sInit_eq_spec w)]

/-! ### Access lemmas for `List.set` folds -/

theorem getD_set_self (l : List Nat) (i a : Nat) (h : i < l.length) :
    (l.set i a).getD i 0 = a := by
  simp [List.getD_eq_getElem?_getD, List.getElem?_set_self h]

theorem getD_set_ne (l : List Nat) (i j a : Nat) (h : i ≠ j) :
    (l.set i a).getD j 0 = l.getD j 0 := by
  simp [List.getD_eq_getElem?_getD, List.getElem?_set_ne h]

/-- A fold of `List.set` calls never changes the length. -/
theorem foldl_set_length (p q : Nat → Nat) :
    ∀ (l : List Nat) (out : List Nat),
      (l.foldl (fun o i => o.set (p i) (q i)) out).length = out.length := by
  intro l
  induction l with
  | nil => intro out; rfl
  | cons a tl ih => intro out; rw [List.foldl_cons, ih, List.length_set]

/-- `unpackWord` (generalised over the byte count) stores the `i`-th byte of
the word at `start + i`. -/
theorem unpack_foldl_getD_in (word : Nat) : ∀ (n : Nat) (out : List Nat) (start i : Nat),
    i < n → start + n ≤ out.length →
    ((List.range n).foldl (fun o k => o.set (start + k) (byteAt word k)) out).getD
      (start + i) 0 = byteAt word i := by
  intro n
  induction n with
  | zero => intro out start i h hl; omega
  | succ m ih =>
    intro out start i hi hlen
    rw [List.range_succ, List.foldl_append, List.foldl_cons, List.foldl_nil]
    by_cases him : i = m
    · subst him
      apply getD_set_self
      rw [foldl_set_length (fun k => start + k) (byteAt word) (List.range i) out]
      omega
    · rw [getD_set_ne _ _ _ _ (by omega)]
      exact ih out start i (by omega) (by omega)

/-- `unpackWord` (generalised over the byte count) leaves every position
outside `[start, start + n)` unchanged. -/
theorem unpack_foldl_getD_out (word : Nat) : ∀ (n : Nat) (out : List Nat) (start m : Nat),
    (m < start ∨ start + n ≤ m) →
    ((List.range n).foldl (fun o k => o.set (start + k) (byteAt word k)) out).getD m 0 =
      out.getD m 0 := by
  intro n
  induction n with
  | zero => intro out start m h; rfl
  | succ j ih =>
    intro out start m h
    rw [List.range_succ, List.foldl_append, List.foldl_cons, List.foldl_nil,
      getD_set_ne _ _ _ _ (by omega)]
    exact ih out start m (by omega)

/-! ### Closed forms of `packWord` per width -/

/-- Evaluated form of `packWord` for w = 16: the nested
shift-add-truncate expression over the `2` bytes at `s..s+1`. -/
theorem packWord_closed_16 (buf : List Nat) (s : Nat) :
    packWord 16 buf s =
      ((((((0 <<< 8) + buf.getD (s + 1) 0) % 2 ^ 16) <<< 8) + buf.getD (s + 0) 0) % 2 ^ 16) := by
  have e0 : s + 0 = s + 2 - 2 := by omega
  have e1 : s + 1 = s + 2 - 1 := by omega
  rw [e1, e0]
  rfl

/-- Evaluated form of `packWord` for w = 32: the nested
shift-add-truncate expression over the `4` bytes at `s..s+3`. -/
theorem packWord_closed_32 (buf : List Nat) (s : Nat) :
    packWord 32 buf s =
      ((((((((((((0 <<< 8) + buf.getD (s + 3) 0) % 2 ^ 32) <<< 8) + buf.getD (s + 2) 0) % 2 ^ 32) <<< 8) + buf.getD (s + 1) 0) % 2 ^ 32) <<< 8) + buf.getD (s + 0) 0) % 2 ^ 32) := by
  have e0 : s + 0 = s + 4 - 4 := by omega
  have e1 : s + 1 = s + 4 - 3 := by omega
  have e2 : s + 2 = s + 4 - 2 := by omega
  have e3 : s + 3 = s + 4 - 1 := by omega
  rw [e3, e2, e1, e0]
  rfl

/-- Evaluated form of `packWord` for w = 64: the nested
shift-add-truncate expression over the `8` bytes at `s..s+7`. -/
theorem packWord_closed_64 (buf : List Nat) (s : Nat) :
    packWord 64 buf s =
      ((((((((((((((((((((((((0 <<< 8) + buf.getD (s + 7) 0) % 2 ^ 64) <<< 8) + buf.getD (s + 6) 0) % 2 ^ 64) <<< 8) + buf.getD (s + 5) 0) % 2 ^ 64) <<< 8) + buf.getD (s + 4) 0) % 2 ^ 64) <<< 8) + buf.getD (s + 3) 0) % 2 ^ 64) <<< 8) + buf.getD (s + 2) 0) % 2 ^ 64) <<< 8) + buf.getD (s + 1) 0) % 2 ^ 64) <<< 8) + buf.getD (s + 0) 0) % 2 ^ 64) := by
  have e0 : s + 0 = s + 8 - 8 := by omega
  have e1 : s + 1 = s + 8 - 7 := by omega
  have e2 : s + 2 = s + 8 - 6 := by omega
  have e3 : s + 3 = s + 8 - 5 := by omega
  have e4 : s + 4 = s + 8 - 4 := by omega
  have e5 : s + 5 = s + 8 - 3 := by omega
  have e6 : s + 6 = s + 8 - 2 := by omega
  have e7 : s + 7 = s + 8 - 1 := by omega
  rw [e7, e6, e5, e4, e3, e2, e1, e0]
  rfl

/-! ### Per-width byte lemmas for the packing claims -/

/-- `byteAt` with the exponent written `8 * i`. -/
theorem byteAt_eq8 (word i : Nat) : byteAt word i = word / 2 ^ (8 * i) % 256 := by
  rw [byteAt_eq, Nat.mul_comm]

theorem packWord_bytes_16 (buf : List Nat) (s : Nat)
    (hb : ∀ i, i < 2 → buf.getD (s + i) 0 < 256) :
    ∀ i, i < 2 → packWord 16 buf s / 2 ^ (8 * i) % 256 = buf.getD (s + i) 0 := by
  have h0 := hb 0 (by norm_num)
  have h1 := hb 1 (by norm_num)
  intro i hi
  rw [packWord_closed_16]
  simp only [Nat.shiftLeft_eq]
  interval_cases i <;> norm_num at h0 h1 ⊢ <;> omega

theorem packWord_bytes_32 (buf : List Nat) (s : Nat)
    (hb : ∀ i, i < 4 → buf.getD (s + i) 0 < 256) :
    ∀ i, i < 4 → packWord 32 buf s / 2 ^ (8 * i) % 256 = buf.getD (s + i) 0 := by
  have h0 := hb 0 (by norm_num)
  have h1 := hb 1 (by norm_num)
  have h2 := hb 2 (by norm_num)
  have h3 := hb 3 (by norm_num)
  intro i hi
  rw [packWord_closed_32]
  simp only [Nat.shiftLeft_eq]
  interval_cases i <;> norm_num at h0 h1 h2 h3 ⊢ <;> omega

set_option maxHeartbeats 2000000 in
theorem packWord_bytes_64 (buf : List Nat) (s : Nat)
    (hb : ∀ i, i < 8 → buf.getD (s + i) 0 < 256) :
    ∀ i, i < 8 → packWord 64 buf s / 2 ^ (8 * i) % 256 = buf.getD (s + i) 0 := by
  have h0 := hb 0 (by norm_num)
  have h1 := hb 1 (by norm_num)
  have h2 := hb 2 (by norm_num)
  have h3 := hb 3 (by norm_num)
  have h4 := hb 4 (by norm_num)
  have h5 := hb 5 (by norm_num)
  have h6 := hb 6 (by norm_num)
  have h7 := hb 7 (by norm_num)
  intro i hi
  rw [packWord_closed_64]
  simp only [Nat.shiftLeft_eq]
  interval_cases i <;> norm_num at h0 h1 h2 h3 h4 h5 h6 h7 ⊢ <;> omega

theorem packWord_ext_16 (buf buf2 : List Nat) (s : Nat)
    (hag : ∀ i, i < 2 → buf2.getD (s + i) 0 = buf.getD (s + i) 0) :
    packWord 16 buf2 s = packWord 16 buf s := by
  have g0 := hag 0 (by norm_num)
  have g1 := hag 1 (by norm_num)
  rw [packWord_closed_16, packWord_closed_16 buf, g0, g1]

theorem packWord_ext_32 (buf buf2 : List Nat) (s : Nat)
    (hag : ∀ i, i < 4 → buf2.getD (s + i) 0 = buf.getD (s + i) 0) :
    packWord 32 buf2 s = packWord 32 buf s := by
  have g0 := hag 0 (by norm_num)
  have g1 := hag 1 (by norm_num)
  have g2 := hag 2 (by norm_num)
  have g3 := hag 3 (by norm_num)
  rw [packWord_closed_32, packWord_closed_32 buf, g0, g1, g2, g3]

theorem packWord_ext_64 (buf buf2 : List Nat) (s : Nat)
    (hag : ∀ i, i < 8 → buf2.getD (s + i) 0 = buf.getD (s + i) 0) :
    packWord 64 buf2 s = packWord 64 buf s := by
  have g0 := hag 0 (by norm_num)
  have g1 := hag 1 (by norm_num)
  have g2 := hag 2 (by norm_num)
  have g3 := hag 3 (by norm_num)
  have g4 := hag 4 (by norm_num)
  have g5 := hag 5 (by norm_num)
  have g6 := hag 6 (by norm_num)
  have g7 := hag 7 (by norm_num)
  rw [packWord_closed_64, packWord_closed_64 buf, g0, g1, g2, g3, g4, g5, g6, g7]

/-- `unpackWord` preserves the buffer length. -/
theorem unpackWord_length (w : Nat) (out : List Nat) (start word : Nat) :
    (unpackWord w out start word).length = out.length := by
  unfold unpackWord
  exact foldl_set_length (fun i => start + i) (byteAt word) (List.range (uBytes w)) out

/-- `encode` always returns a block of `2u` bytes. -/
theorem encode_length (w r b : Nat) (K pt : List Nat) :
    (encode w r b K pt).length = 2 * uBytes w := by
  show (unpackWord w (unpackWord w (List.replicate (2 * uBytes w) 0) 0
      (encodeWords w r b K (packWord w pt 0) (packWord w pt (uBytes w))).1) (uBytes w)
      (encodeWords w r b K (packWord w pt 0) (packWord w pt (uBytes w))).2).length =
    2 * uBytes w
  rw [unpackWord_length, unpackWord_length, List.length_replicate]

/-- `decode` always returns a block of `2u` bytes. -/
theorem decode_length (w r b : Nat) (K ct : List Nat) :
    (decode w r b K ct).length = 2 * uBytes w := by
  show (unpackWord w (unpackWord w (List.replicate (2 * uBytes w) 0) 0
      (decodeWords w r b K (packWord w ct 0) (packWord w ct (uBytes w))).1) (uBytes w)
      (decodeWords w r b K (packWord w ct 0) (packWord w ct (uBytes w))).2).length =
    2 * uBytes w
  rw [unpackWord_length, unpackWord_length, List.length_replicate]

/-- With `c = 1` the mixing loop's `L` index `j` stays 0 forever. -/
theorem mixIter_j_zero (w tt : Nat) : ∀ (n : Nat) (st : MixSt), st.j = 0 →
    (((mixStep w tt 1)^[n]) st).j = 0 := by
  intro n
  induction n with
  | zero => intro st h; exact h
  | succ m ih =>
    intro st _
    rw [Function.iterate_succ_apply]
    exact ih _ (by simp [mixStep]; omega)

/-- For `r ≤ 254` the encode round loop terminates: the counter reaches
`r + 1` without wrapping. -/
theorem encLoop_terminates_of_le (r : Nat) (hr : r ≤ 254) : encLoopTerminates r :=
  ⟨r, by unfold encCounter; omega⟩

/-- The counter of the encode round loop never exceeds 255, so for `r = 255`
the loop condition `i <= r` never fails. -/
theorem encLoop_not_terminates_255 : ¬ encLoopTerminates 255 := by
  rintro ⟨n, hn⟩
  have h2 : encCounter n < 256 := Nat.mod_lt _ (by norm_num)
  omega

/-- The decode round loop terminates for every round count, `r = 255`
included: its counter only counts down and reaches 0 after `r` bodies. -/
theorem decLoop_terminates (r : Nat) : decLoopTerminates r :=
  ⟨r, Nat.sub_self r⟩

/-! ### Claim theorems -/

/-- C1 counterexample: the claim quantifies over every round count the
`uint8_t` parameter admits, but at `r = 255` the `encodeWords` loop
`for (uint8_t i = 1; i <= r; ++i)` never terminates — the counter wraps
255 → 0 and no counter value ever exceeds 255, so `encode` produces no
ciphertext and `decode(key, encode(key, block)) == block` fails at
`r = 255` (any supported w, e.g. w = 16, b = 0). -/
theorem C1_counterexample : ¬ encLoopTerminates 255 :=
  encLoop_not_terminates_255

/-- C1 (amended): for every supported instantiation with `w ∈ {16, 32, 64}`,
`r ≤ 254` (at `r = 255` the encode round loop never terminates) and
`b ≤ 255`, every key of exactly `b` bytes and every block of exactly
`2u` bytes, `decode(key, encode(key, block)) = block`. -/
theorem C1_round_trip (w r b : Nat) (hw : w = 16 ∨ w = 32 ∨ w = 64)
    (hr : r ≤ 254) (hb : b ≤ 255) (K pt : List Nat) (hK : K.length = b)
    (hKbytes : ∀ x ∈ K, x < 256) (hpt : pt.length = 2 * uBytes w)
    (hbytes : ∀ x ∈ pt, x < 256) :
    decode w r b K (encode w r b K pt) = pt := by
  rcases hw with h | h | h <;> subst h
  · exact roundtrip_16 r b K pt (by simpa [uBytes] using hpt) hbytes
  · exact roundtrip_32 r b K pt (by simpa [uBytes] using hpt) hbytes
  · exact roundtrip_64 r b K pt (by simpa [uBytes] using hpt) hbytes

/-- C1 witness: the round trip at the concrete instantiation
w = 16, r = 1, b = 1. -/
theorem C1_round_trip_witness :
    decode 16 1 1 [5] (encode 16 1 1 [5] [1, 2, 3, 4]) = [1, 2, 3, 4] :=
  C1_round_trip 16 1 1 (Or.inl rfl) (by norm_num) (by norm_num) [5] [1, 2, 3, 4]
    rfl (by decide) (by decide) (by decide)

set_option maxRecDepth 10000 in
/-- C2: the RC5-32/12/16 vector of `test1`: encoding block
00 11 22 33 44 55 66 77 under key 00 01 .. 0F gives 2D DC 14 9B CF 08 8B 9E. -/
theorem C2_vector_w32 : encode 32 12 16
    [0x00, 0x01, 0x02, 0x03, 0x04, 0x05, 0x06, 0x07,
     0x08, 0x09, 0x0A, 0x0B, 0x0C, 0x0D, 0x0E, 0x0F]
    [0x00, 0x11, 0x22, 0x33, 0x44, 0x55, 0x66, 0x77] =
    [0x2D, 0xDC, 0x14, 0x9B, 0xCF, 0x08, 0x8B, 0x9E] := by
  decide

set_option maxRecDepth 20000 in
/-- C3: the RC5-64/24/24 vector of `test5`: encoding block 00..0F under key
00..17 gives A4 67 72 82 0E DB CE 02 35 AB EA 32 AE 71 78 DA. -/
theorem C3_vector_w64 : encode 64 24 24
    [0x00, 0x01, 0x02, 0x03, 0x04, 0x05, 0x06, 0x07, 0x08, 0x09, 0x0A, 0x0B,
     0x0C, 0x0D, 0x0E, 0x0F, 0x10, 0x11, 0x12, 0x13, 0x14, 0x15, 0x16, 0x17]
    [0x00, 0x01, 0x02, 0x03, 0x04, 0x05, 0x06, 0x07,
     0x08, 0x09, 0x0A, 0x0B, 0x0C, 0x0D, 0x0E, 0x0F] =
    [0xA4, 0x67, 0x72, 0x82, 0x0E, 0xDB, 0xCE, 0x02,
     0x35, 0xAB, 0xEA, 0x32, 0xAE, 0x71, 0x78, 0xDA] := by
  decide

/-- C4: when the rotation amount satisfies `n mod w == 0` the rotation
helpers do compute the complementary shift amount `w - (n & (w-1)) = w`,
i.e. a shift by the full word width — exactly what the claim says must not
happen (`x >> 32` / `x >> 64` is undefined for `uint32_t`/`uint64_t` in
C++).  Under the embedding's shift semantics (a shift by `≥ w` yields 0)
the rotation value still comes out as `x`. -/
theorem C4_shift_amount_is_w :
    backAmt 32 0 = 32 ∧ backAmt 64 0 = 64 ∧
    left_shift 32 5 0 = 5 ∧ right_shift 32 5 0 = 5 := by
  decide

/-- C5: for every supported width, round count and key length, `setupS`
returns a table of `t = 2*(r+1)` words and computes exactly the algorithm
stated by the spec: `S[0] = P`, `S[i] = S[i-1] + Q (mod 2^w)`, then
`3*max(t,c)` mixing iterations with `A`, `B`, `i`, `j` starting at 0,
`A = S[i] = rotateLeft(S[i]+A+B, 3)`,
`B = L[j] = rotateLeft(L[j]+A+B, (A+B) mod w)`,
`i = (i+1) mod t`, `j = (j+1) mod c`. -/
theorem C5_key_schedule (w r b : Nat) (hw : w = 16 ∨ w = 32 ∨ w = 64)
    (hr : r ≤ 255) (hb : b ≤ 255) (K : List Nat) (hK : K.length = b) :
    setupS_spec w r b K = setupS w r b K ∧
      (setupS w r b K).length = 2 * (r + 1) :=
  ⟨setupS_eq_spec w r b hw K, setupS_length w r b K⟩

/-- C5 witness: the spec schedule and the source schedule agree at the
concrete instantiation w = 16, r = 1, b = 1. -/
theorem C5_key_schedule_witness :
    setupS_spec 16 1 1 [7] = setupS 16 1 1 [7] ∧
      (setupS 16 1 1 [7]).length = 2 * (1 + 1) :=
  C5_key_schedule 16 1 1 (Or.inl rfl) (by norm_num) (by norm_num) [7] rfl

/-- C6 counterexample: the `b = 0` key schedule does use `c = 1`, but
"both operations are total" fails: at round count `r = 255` (admitted by the
`uint8_t` parameter) the encode round loop's counter never exceeds 255, so
the loop never exits and `encode` is not total. -/
theorem C6_counterexample : cLen 16 0 = 1 ∧ ¬ encLoopTerminates 255 :=
  ⟨rfl, encLoop_not_terminates_255⟩

/-- C6 (amended): for `b = 0` and every round count `r` the key schedule
uses `c = ceil(max(b,1)/u) = 1`, the mixing loop's `L` index `j` stays 0
(in bounds) at every iteration, decode's round loop terminates (decode is
total) and `decode` returns a block of `2u` bytes; for `r ≤ 254` encode is
total as well — its round loop terminates, it returns a block of `2u` bytes
and `decode` inverts it — so both operations are deterministic functions of
their inputs.  At `r = 255` only encode fails to terminate
(`C6_counterexample`). -/
theorem C6_empty_key (w r : Nat) (hw : w = 16 ∨ w = 32 ∨ w = 64)
    (pt : List Nat) (hpt : pt.length = 2 * uBytes w)
    (hbytes : ∀ x ∈ pt, x < 256) :
    cLen w 0 = 1 ∧
    (∀ n : Nat, (((mixStep w (tLen r) (cLen w 0))^[n])
        ⟨(List.range (tLen r)).map (sInit w), initL w 0 [], 0, 0, 0, 0⟩).j = 0) ∧
    decLoopTerminates r ∧
    (decode w r 0 [] pt).length = 2 * uBytes w ∧
    (r ≤ 254 →
      encLoopTerminates r ∧
      (encode w r 0 [] pt).length = 2 * uBytes w ∧
      decode w r 0 [] (encode w r 0 [] pt) = pt) := by
  have hc1 : cLen w 0 = 1 := by rcases hw with h | h | h <;> subst h <;> rfl
  refine ⟨hc1, ?_, decLoop_terminates r, decode_length w r 0 [] pt, ?_⟩
  · intro n
    rw [hc1]
    exact mixIter_j_zero w (tLen r) n _ rfl
  · intro hr
    refine ⟨encLoop_terminates_of_le r hr, encode_length w r 0 [] pt, ?_⟩
    rcases hw with h | h | h <;> subst h
    · exact roundtrip_16 r 0 [] pt (by simpa [uBytes] using hpt) hbytes
    · exact roundtrip_32 r 0 [] pt (by simpa [uBytes] using hpt) hbytes
    · exact roundtrip_64 r 0 [] pt (by simpa [uBytes] using hpt) hbytes

/-- C6 witness: the empty-key properties at w = 16, r = 0. -/
theorem C6_empty_key_witness :
    cLen 16 0 = 1 ∧
    (∀ n : Nat, (((mixStep 16 (tLen 0) (cLen 16 0))^[n])
        ⟨(List.range (tLen 0)).map (sInit 16), initL 16 0 [], 0, 0, 0, 0⟩).j = 0) ∧
    decLoopTerminates 0 ∧
    (decode 16 0 0 [] [1, 2, 3, 4]).length = 2 * uBytes 16 ∧
    (0 ≤ 254 →
      encLoopTerminates 0 ∧
      (encode 16 0 0 [] [1, 2, 3, 4]).length = 2 * uBytes 16 ∧
      decode 16 0 0 [] (encode 16 0 0 [] [1, 2, 3, 4]) = [1, 2, 3, 4]) :=
  C6_empty_key 16 0 (Or.inl rfl) [1, 2, 3, 4] (by decide) (by decide)

/-- C7: for a fixed key, `encode` is injective on blocks of `2u` bytes: two
valid blocks with the same ciphertext are equal.  (For `r = 255` the C++
encode loop never returns, so no block produces a ciphertext at all and the
claim is vacuous there; the theorem covers every terminating round count.) -/
theorem C7_encode_injective (w r b : Nat) (hw : w = 16 ∨ w = 32 ∨ w = 64)
    (hr : r ≤ 254) (K p1 p2 : List Nat)
    (h1 : p1.length = 2 * uBytes w) (h1b : ∀ x ∈ p1, x < 256)
    (h2 : p2.length = 2 * uBytes w) (h2b : ∀ x ∈ p2, x < 256)
    (heq : encode w r b K p1 = encode w r b K p2) : p1 = p2 := by
  rcases hw with h | h | h <;> subst h
  · rw [← roundtrip_16 r b K p1 (by simpa [uBytes] using h1) h1b, heq,
      roundtrip_16 r b K p2 (by simpa [uBytes] using h2) h2b]
  · rw [← roundtrip_32 r b K p1 (by simpa [uBytes] using h1) h1b, heq,
      roundtrip_32 r b K p2 (by simpa [uBytes] using h2) h2b]
  · rw [← roundtrip_64 r b K p1 (by simpa [uBytes] using h1) h1b, heq,
      roundtrip_64 r b K p2 (by simpa [uBytes] using h2) h2b]

/-- C7 witness: injectivity applied at a concrete pair of equal blocks. -/
theorem C7_encode_injective_witness : ([1, 2, 3, 4] : List Nat) = [1, 2, 3, 4] :=
  C7_encode_injective 16 2 0 (Or.inl rfl) (by norm_num) [] [1, 2, 3, 4] [1, 2, 3, 4]
    (by decide) (by decide) (by decide) (by decide) rfl

/-- C8: `packWord(buffer, offset)` returns the word whose `i`-th
least-significant byte is `buffer[offset + i]` and reads only the bytes at
`offset..offset+u-1`; `unpackWord(buffer, offset, word)` keeps the buffer
length, writes the `u` bytes of `word` least-significant first into
`buffer[offset..offset+u)` and changes nothing else; and `encode` packs `A`
from the first `u` bytes, `B` from the next `u`, and unpacks `A` at offset 0
and `B` at offset `u`. -/
theorem C8_pack_unpack (w : Nat) (hw : w = 16 ∨ w = 32 ∨ w = 64) :
    (∀ (buf : List Nat) (s : Nat), (∀ i, i < uBytes w → buf.getD (s + i) 0 < 256) →
      ∀ i, i < uBytes w → packWord w buf s / 2 ^ (8 * i) % 256 = buf.getD (s + i) 0) ∧
    (∀ (buf buf2 : List Nat) (s : Nat),
      (∀ i, i < uBytes w → buf2.getD (s + i) 0 = buf.getD (s + i) 0) →
      packWord w buf2 s = packWord w buf s) ∧
    (∀ (out : List Nat) (start word : Nat),
      (unpackWord w out start word).length = out.length ∧
      (∀ i, i < uBytes w → start + uBytes w ≤ out.length →
        (unpackWord w out start word).getD (start + i) 0 = word / 2 ^ (8 * i) % 256) ∧
      (∀ m, (m < start ∨ start + uBytes w ≤ m) →
        (unpackWord w out start word).getD m 0 = out.getD m 0)) ∧
    (∀ (r b : Nat) (K pt : List Nat),
      encode w r b K pt =
        unpackWord w (unpackWord w (List.replicate (2 * uBytes w) 0) 0
          (encodeWords w r b K (packWord w pt 0) (packWord w pt (uBytes w))).1)
          (uBytes w)
          (encodeWords w r b K (packWord w pt 0) (packWord w pt (uBytes w))).2) := by
  refine ⟨?_, ?_, ?_, fun r b K pt => rfl⟩
  · rcases hw with h | h | h <;> subst h
    · exact fun buf s hb => packWord_bytes_16 buf s hb
    · exact fun buf s hb => packWord_bytes_32 buf s hb
    · exact fun buf s hb => packWord_bytes_64 buf s hb
  · rcases hw with h | h | h <;> subst h
    · exact fun buf buf2 s hag => packWord_ext_16 buf buf2 s hag
    · exact fun buf buf2 s hag => packWord_ext_32 buf buf2 s hag
    · exact fun buf buf2 s hag => packWord_ext_64 buf buf2 s hag
  · intro out start word
    refine ⟨unpackWord_length w out start word, ?_, ?_⟩
    · intro i hi hlen
      have h := unpack_foldl_getD_in word (uBytes w) out start i hi hlen
      calc (unpackWord w out start word).getD (start + i) 0
          = byteAt word i := h
        _ = word / 2 ^ (8 * i) % 256 := byteAt_eq8 word i
    · intro m hm
      exact unpack_foldl_getD_out word (uBytes w) out start m hm

/-- C8 witness: the first byte identity at a concrete buffer. -/
theorem C8_pack_unpack_witness :
    packWord 16 [1, 2] 0 / 2 ^ (8 * 1) % 256 = ([1, 2] : List Nat).getD (0 + 1) 0 :=
  (C8_pack_unpack 16 (Or.inl rfl)).1 [1, 2] 0 (by decide) 1 (by decide)

/-- C9: the per-width magic constants P and Q of the key schedule have
exactly the claimed values. -/
theorem C9_magic_constants :
    Pconst 16 = 0xB7E1 ∧ Qconst 16 = 0x9E37 ∧
    Pconst 32 = 0xB7E15163 ∧ Qconst 32 = 0x9E3779B9 ∧
    Pconst 64 = 0xB7E151628AED2A6B ∧ Qconst 64 = 0x9E3779B97F4A7C15 :=
  ⟨rfl, rfl, rfl, rfl, rfl, rfl⟩

/-- C10: for every supported width and round count, the `b = 0` key schedule
computes `c = 1` with the single `L` word 0, exactly as a key of `u` zero
bytes does, so the subkey tables — and hence the ciphertexts of every valid
block — coincide.  (`r ≤ 254` keeps the encode loop in the terminating
range.) -/
theorem C10_empty_eq_zero_key (w r : Nat) (hw : w = 16 ∨ w = 32 ∨ w = 64)
    (hr : r ≤ 254) (pt : List Nat) (hpt : pt.length = 2 * uBytes w)
    (hbytes : ∀ x ∈ pt, x < 256) :
    setupS w r 0 [] = setupS w r (uBytes w) (List.replicate (uBytes w) 0) ∧
    encode w r 0 [] pt = encode w r (uBytes w) (List.replicate (uBytes w) 0) pt := by
  have hc : cLen w 0 = cLen w (uBytes w) := by
    rcases hw with h | h | h <;> subst h <;> rfl
  have hL : initL w 0 [] = initL w (uBytes w) (List.replicate (uBytes w) 0) := by
    rcases hw with h | h | h <;> subst h <;> rfl
  have hS : setupS w r 0 [] = setupS w r (uBytes w) (List.replicate (uBytes w) 0) := by
    unfold setupS
    rw [hc, hL]
  refine ⟨hS, ?_⟩
  simp only [encode, encodeWords]
  rw [hS]

/-- C10 witness: the agreement at w = 16, r = 0. -/
theorem C10_empty_eq_zero_key_witness :
    setupS 16 0 0 [] = setupS 16 0 (uBytes 16) (List.replicate (uBytes 16) 0) ∧
    encode 16 0 0 [] [1, 2, 3, 4] =
      encode 16 0 (uBytes 16) (List.replicate (uBytes 16) 0) [1, 2, 3, 4] :=
  C10_empty_eq_zero_key 16 0 (Or.inl rfl) (by norm_num) [1, 2, 3, 4]
    (by decide) (by decide)

end RC5
